import Mathlib

/-!
# Verification of the naive low-degree-extension (LDE) implementations

This file embeds `lde/src/naive.rs` — the naive quadratic-time reference
implementations `NaiveUndefinedLde`, `NaiveSubgroupLde` and `NaiveCosetLde`,
together with their helpers `barycentric_weights` and `interpolate` — as
executable Lean definitions, and proves the specification's claims about them.

Modelling conventions:
* A field element is an element of an arbitrary `Field F` with decidable
  equality; `F::from_canonical_usize` is the natural-number cast.
* A row-major evaluation matrix is modelled as its list of rows
  (`List (List F)`); `MatrixRows::row(i)` is `List.getD i []` and
  `VerticalPair` of two matrices is list append of their row lists.
* The two-adic field capability (`Val::two_adic_generator`, `Val::generator`)
  is an external collaborator of the crate; it is passed as an explicit
  function `two_adic_generator : Nat → F` and element `generator : F`, with
  its contract (root-of-unity order, compatibility between levels) taken as
  hypotheses of the theorems that need it.
* `log2_strict_usize` (which in Rust stops execution unless its argument is an
  exact power of two) is modelled by `Nat.log2`; theorems about the two-adic
  variants carry the power-of-two height precondition as a hypothesis, under
  which the two functions agree.
-/

namespace NaiveLde

variable {F : Type*} [Field F] [DecidableEq F]

/-- The concrete witness field: the spec's §8 scenario works over the prime
field of modulus 17, whose multiplicative group has order `16 = 2^4`. -/
instance : Fact (Nat.Prime 17) := ⟨by norm_num⟩

/-- Modelled from the spec: §4.1 batched inversion (`p3_field`'s
`batch_multiplicative_inverse`, not part of this crate): it returns the
multiplicative inverse of each input element, in order, and is undefined when
some input is the additive identity (here the junk value `0⁻¹ = 0` stands in
for that undefined case; the callers in scope guarantee non-zero inputs). -/
def batch_multiplicative_inverse (xs : List F) : List F :=
  xs.map (fun x => x⁻¹)

/-- The list of denominators `Π_{j ≠ i} (points[i] − points[j])`, `i < n`,
formed inside `barycentric_weights` (`naive.rs` lines 106–114) before they are
passed to batched inversion. -/
def lagrange_denominators (points : List F) : List F :=
  (List.range points.length).map (fun i =>
    (((List.range points.length).filter (fun j => decide (j ≠ i))).map
      (fun j => points.getD i 0 - points.getD j 0)).prod)

/-- `barycentric_weights` from `naive.rs` lines 104–116: batched inversion of
the pairwise difference products. -/
def barycentric_weights (points : List F) : List F :=
  batch_multiplicative_inverse (lagrange_denominators points)

/-- Modelled from the spec: `p3_field`'s `scale_vec` — multiply every entry of
a vector by a scalar. -/
def scale_vec (s : F) (vec : List F) : List F :=
  vec.map (fun x => s * x)

/-- Modelled from the spec: `p3_field`'s `add_vecs` — elementwise sum of two
vectors of equal length. -/
def add_vecs (v w : List F) : List F :=
  List.zipWith (fun x y => x + y) v w

/-- Modelled from the spec: `p3_field`'s `sum_vecs` — elementwise sum of a
sequence of vectors (§4.3 step 3 sums one vector per domain point).  The Rust
function rejects an empty sequence; it is only ever applied to one summand per
point of a nonempty domain, and the Lean model returns `[]` on the empty
sequence. -/
def sum_vecs (vs : List (List F)) : List F :=
  match vs with
  | [] => []
  | v :: rest => rest.foldl add_vecs v

/-- `interpolate` from `naive.rs` lines 119–142: evaluate, at the query point
`x`, every column of the polynomial batch interpolated through `points` with
values `values`, using precomputed `barycentric_weights`.  If `x` is one of
the domain points the row at the first matching index is returned unchanged;
otherwise the barycentric Lagrange formula is used. -/
def interpolate (points : List F) (values : List (List F)) (x : F)
    (barycentric_weights : List F) : List F :=
  match points.findIdx? (fun x_i => decide (x_i = x)) with
  | some i => values.getD i []
  | none =>
    let l_x : F := (points.map (fun x_i => x - x_i)).prod
    let sum := sum_vecs ((List.range points.length).map (fun i =>
      scale_vec (barycentric_weights.getD i 0 / (x - points.getD i 0))
        (values.getD i [])))
    scale_vec l_x sum

/-- `NaiveUndefinedLde::lde_batch` from `naive.rs` lines 33–46: the canonical
index domain `0, 1, …, height−1` (embedded into the field), extended to rows
`height, …, extended_height−1` by interpolation; the result is the
`VerticalPair` of the original matrix on top of the freshly computed rows. -/
def NaiveUndefinedLde.lde_batch (polys : List (List F)) (extended_height : Nat) :
    List (List F) :=
  let original_height := polys.length
  let original_domain : List F :=
    (List.range original_height).map (fun x : Nat => (x : F))
  let weights := barycentric_weights original_domain
  let added_rows :=
    (List.range' original_height (extended_height - original_height)).map
      (fun x : Nat => interpolate original_domain polys ((x : F)) weights)
  polys ++ added_rows

/-- Modelled from the spec: §4.4 subgroup domain (`p3_field`'s
`cyclic_subgroup_known_order`): enumerate `g^0, g^1, …, g^(order−1)` in that
order. -/
def cyclic_subgroup_known_order (g : F) (order : Nat) : List F :=
  (List.range order).map (fun i => g ^ i)

/-- Modelled from the spec: §4.4 coset domain (`p3_field`'s
`cyclic_subgroup_coset_known_order`): the subgroup enumeration with every
point multiplied by the fixed shift. -/
def cyclic_subgroup_coset_known_order (g shift : F) (order : Nat) : List F :=
  (List.range order).map (fun i => shift * g ^ i)

/-- `NaiveSubgroupLde::lde_batch` from `naive.rs` lines 53–67: interpolate the
input over the two-adic subgroup of order `2^bits` (`bits` = log₂ of the
height, which the Rust code requires to be an exact power of two) and
evaluate at every point of the full subgroup of order `2^(bits+added_bits)`,
producing an entirely new matrix. -/
def NaiveSubgroupLde.lde_batch (two_adic_generator : Nat → F)
    (polys : List (List F)) (added_bits : Nat) : List (List F) :=
  let bits := Nat.log2 polys.length
  let g := two_adic_generator bits
  let subgroup := cyclic_subgroup_known_order g (2 ^ bits)
  let weights := barycentric_weights subgroup
  let lde_bits := bits + added_bits
  let g_lde := two_adic_generator lde_bits
  let lde_subgroup := cyclic_subgroup_known_order g_lde (2 ^ lde_bits)
  lde_subgroup.map (fun x => interpolate subgroup polys x weights)

/-- `NaiveCosetLde::shift` from `naive.rs` lines 98–100: the shift of the
target coset is the field's designated multiplicative generator, independent
of `lde_bits`. -/
def NaiveCosetLde.shift (generator : F) (_lde_bits : Nat) : F :=
  generator

/-- `NaiveCosetLde::lde_batch` from `naive.rs` lines 74–90: like the subgroup
variant, but the target domain is the coset of the `2^(bits+added_bits)`
subgroup shifted by `NaiveCosetLde::shift`. -/
def NaiveCosetLde.lde_batch (two_adic_generator : Nat → F) (generator : F)
    (polys : List (List F)) (added_bits : Nat) : List (List F) :=
  let bits := Nat.log2 polys.length
  let g := two_adic_generator bits
  let subgroup := cyclic_subgroup_known_order g (2 ^ bits)
  let weights := barycentric_weights subgroup
  let lde_bits := bits + added_bits
  let g_lde := two_adic_generator lde_bits
  let lde_subgroup := cyclic_subgroup_coset_known_order g_lde
    (NaiveCosetLde.shift generator lde_bits) (2 ^ lde_bits)
  lde_subgroup.map (fun x => interpolate subgroup polys x weights)

/-! ### List-indexing helper lemmas -/

theorem getD_map_range {α : Type*} (f : Nat → α) {n i : Nat} (h : i < n) (d : α) :
    ((List.range n).map f).getD i d = f i := by
  rw [List.getD_eq_getElem _ _ (by simpa using h)]
  simp

theorem getD_map_of_lt {α β : Type*} (f : α → β) (l : List α) {i : Nat}
    (h : i < l.length) (d : β) (d' : α) :
    (l.map f).getD i d = f (l.getD i d') := by
  rw [List.getD_eq_getElem _ _ (by simpa using h), List.getD_eq_getElem _ _ h]
  simp

theorem map_getD_range {α : Type*} (l : List α) (d : α) :
    (List.range l.length).map (fun i => l.getD i d) = l := by
  refine List.ext_get (by simp) ?_
  intro n h1 h2
  simp only [List.get_eq_getElem, List.getElem_map, List.getElem_range]
  exact List.getD_eq_getElem l d h2

theorem nodup_getD_ne (l : List F) (hnd : l.Nodup) {i j : Nat}
    (hi : i < l.length) (hj : j < l.length) (hij : i ≠ j) :
    l.getD i 0 ≠ l.getD j 0 := by
  rw [List.getD_eq_getElem _ _ hi, List.getD_eq_getElem _ _ hj]
  intro hEq
  have hinj := List.nodup_iff_injective_get.mp hnd
  have := @hinj ⟨i, hi⟩ ⟨j, hj⟩ (by simpa using hEq)
  exact hij (by simpa using this)

theorem nodup_getD_injOn (l : List F) (hnd : l.Nodup) :
    Set.InjOn (fun j => l.getD j 0) (Finset.range l.length) := by
  intro i hi j hj hij
  simp only [Finset.coe_range, Set.mem_Iio] at hi hj
  by_contra hne
  exact nodup_getD_ne l hnd hi hj hne hij

/-! ### `findIdx?` helper lemmas (the exact-match scan in `interpolate`) -/

theorem findIdx?_eq_none_of_not_mem {l : List F} {x : F} (hx : x ∉ l) :
    l.findIdx? (fun y => decide (y = x)) = none := by
  rw [List.findIdx?_eq_none_iff]
  intro y hy
  simp only [decide_eq_false_iff_not]
  exact fun h => hx (h ▸ hy)

theorem findIdx?_eq_some_of_nodup {l : List F} (hnd : l.Nodup) {i : Nat}
    (hi : i < l.length) :
    l.findIdx? (fun y => decide (y = l.getD i 0)) = some i := by
  rw [List.findIdx?_eq_some_iff_findIdx_eq]
  refine ⟨hi, ?_⟩
  rw [List.findIdx_eq hi]
  constructor
  · simp only [decide_eq_true_eq]
    exact (List.getD_eq_getElem _ _ hi).symm
  · intro j hji
    simp only [decide_eq_false_iff_not]
    rw [List.getD_eq_getElem _ _ hi]
    have hj : j < l.length := hji.trans hi
    intro hEq
    exact nodup_getD_ne l hnd hj hi (Nat.ne_of_lt hji)
      (by rw [List.getD_eq_getElem _ _ hj, List.getD_eq_getElem _ _ hi]; exact hEq)

theorem findIdx?_mem {l : List F} {x : F} (hx : x ∈ l) :
    ∃ i, l.findIdx? (fun y => decide (y = x)) = some i
      ∧ i < l.length ∧ l.getD i 0 = x := by
  obtain ⟨n, hn, rfl⟩ := List.mem_iff_getElem.mp hx
  have hex : ∃ y ∈ l, decide (y = l[n]) = true := ⟨l[n], List.getElem_mem hn, by simp⟩
  have hlt := List.findIdx_lt_length_of_exists hex
  refine ⟨l.findIdx (fun y => decide (y = l[n])), ?_, hlt, ?_⟩
  · rw [List.findIdx?_eq_some_iff_findIdx_eq]
    exact ⟨hlt, rfl⟩
  · have := @List.findIdx_getElem _ (fun y => decide (y = l[n])) l hlt
    rw [List.getD_eq_getElem _ _ hlt]
    simpa using this

/-! ### Sums and products over `List.range` versus `Finset.range` -/

theorem range_map_sum {M : Type*} [AddCommMonoid M] (f : Nat → M) (n : Nat) :
    ((List.range n).map f).sum = ∑ i ∈ Finset.range n, f i := by
  induction n with
  | zero => simp
  | succ n ih =>
    rw [List.range_succ, List.map_append, List.sum_append, Finset.sum_range_succ, ih]
    simp

theorem range_map_prod {M : Type*} [CommMonoid M] (f : Nat → M) (n : Nat) :
    ((List.range n).map f).prod = ∏ i ∈ Finset.range n, f i := by
  induction n with
  | zero => simp
  | succ n ih =>
    rw [List.range_succ, List.map_append, List.prod_append, Finset.prod_range_succ, ih]
    simp

theorem filter_map_prod {M : Type*} [CommMonoid M] (p : Nat → Prop) [DecidablePred p]
    (g : Nat → M) (l : List Nat) :
    ((l.filter (fun j => decide (p j))).map g).prod
      = (l.map (fun j => if p j then g j else 1)).prod := by
  induction l with
  | nil => rfl
  | cons a l ih =>
    by_cases h : p a <;> simp [List.filter_cons, h, ih]

/-! ### The vector utilities on singleton rows -/

theorem foldl_add_vecs_singletons {α : Type*} (f : α → F) (l : List α) (c : F) :
    (l.map (fun t => [f t])).foldl add_vecs [c] = [c + (l.map f).sum] := by
  induction l generalizing c with
  | nil => simp
  | cons a l ih =>
    simp only [List.map_cons, List.foldl_cons]
    rw [show add_vecs [c] [f a] = [c + f a] from rfl, ih]
    simp [add_assoc]

theorem sum_vecs_singletons {α : Type*} (f : α → F) (l : List α) (hl : l ≠ []) :
    sum_vecs (l.map (fun t => [f t])) = [(l.map f).sum] := by
  cases l with
  | nil => exact absurd rfl hl
  | cons a l =>
    simp only [List.map_cons, sum_vecs, List.sum_cons]
    exact foldl_add_vecs_singletons f l (f a)

/-! ### The computed weights are Mathlib's nodal weights -/

theorem lagrange_denominators_getD (pts : List F) {i : Nat} (hi : i < pts.length) :
    (lagrange_denominators pts).getD i 0
      = ∏ j ∈ (Finset.range pts.length).erase i, (pts.getD i 0 - pts.getD j 0) := by
  unfold lagrange_denominators
  rw [getD_map_range _ hi,
    filter_map_prod (fun j => j ≠ i) (fun j => pts.getD i 0 - pts.getD j 0),
    range_map_prod, ← Finset.prod_filter, Finset.filter_ne']

theorem barycentric_weights_getD (pts : List F) {i : Nat} (hi : i < pts.length) :
    (barycentric_weights pts).getD i 0
      = Lagrange.nodalWeight (Finset.range pts.length) (fun j => pts.getD j 0) i := by
  unfold barycentric_weights batch_multiplicative_inverse
  have hlen : i < (lagrange_denominators pts).length := by
    unfold lagrange_denominators; simpa using hi
  rw [getD_map_of_lt _ _ hlen _ 0, lagrange_denominators_getD pts hi,
    Lagrange.nodalWeight, Finset.prod_inv_distrib]

/-! ### Main evaluation lemma: `interpolate` on the evaluations of a
polynomial of degree `< n` returns the polynomial's value, at every query
point (at a domain point through the exact-match branch, elsewhere through
the barycentric formula). -/

theorem interpolate_map_eval (p : Polynomial F) (pts : List F) (hnd : pts.Nodup)
    (hdeg : p.natDegree < pts.length) (x : F) :
    interpolate pts (pts.map (fun t => [Polynomial.eval t p])) x
      (barycentric_weights pts) = [Polynomial.eval x p] := by
  by_cases hx : x ∈ pts
  · obtain ⟨i, hfind, hi, hgetD⟩ := findIdx?_mem hx
    unfold interpolate
    rw [hfind]
    show (pts.map fun t => [Polynomial.eval t p]).getD i [] = [Polynomial.eval x p]
    rw [getD_map_of_lt _ _ hi _ 0, hgetD]
  · have hinj : Set.InjOn (fun j => pts.getD j 0) (Finset.range pts.length) :=
      nodup_getD_injOn pts hnd
    have hnpos : 0 < pts.length := Nat.lt_of_le_of_lt (Nat.zero_le _) hdeg
    have hxne : ∀ i ∈ Finset.range pts.length, x ≠ pts.getD i 0 := by
      intro i hi hEq
      rw [Finset.mem_range] at hi
      refine hx ?_
      rw [hEq, List.getD_eq_getElem _ _ hi]
      exact List.getElem_mem hi
    unfold interpolate
    rw [findIdx?_eq_none_of_not_mem hx]
    show scale_vec ((pts.map fun x_i => x - x_i).prod)
        (sum_vecs ((List.range pts.length).map (fun i =>
          scale_vec ((barycentric_weights pts).getD i 0 / (x - pts.getD i 0))
            ((pts.map fun t => [Polynomial.eval t p]).getD i []))))
      = [Polynomial.eval x p]
    have hrows : ∀ i ∈ List.range pts.length,
        scale_vec ((barycentric_weights pts).getD i 0 / (x - pts.getD i 0))
          ((pts.map fun t => [Polynomial.eval t p]).getD i [])
        = [(Lagrange.nodalWeight (Finset.range pts.length) (fun j => pts.getD j 0) i
              / (x - pts.getD i 0)) * Polynomial.eval (pts.getD i 0) p] := by
      intro i hi
      rw [List.mem_range] at hi
      rw [getD_map_of_lt _ _ hi _ 0, barycentric_weights_getD pts hi]
      rfl
    rw [List.map_congr_left hrows,
      sum_vecs_singletons _ (List.range pts.length)
        (by simp only [ne_eq, List.range_eq_nil]; omega)]
    show [(pts.map fun x_i => x - x_i).prod *
        ((List.range pts.length).map (fun i =>
          (Lagrange.nodalWeight (Finset.range pts.length) (fun j => pts.getD j 0) i
            / (x - pts.getD i 0)) * Polynomial.eval (pts.getD i 0) p)).sum]
      = [Polynomial.eval x p]
    have hpts : pts.map (fun x_i => x - x_i)
        = (List.range pts.length).map (fun i => x - pts.getD i 0) := by
      conv_lhs => rw [← map_getD_range pts 0]
      rw [List.map_map]
      rfl
    rw [hpts, range_map_prod, range_map_sum]
    have hsum : ∑ i ∈ Finset.range pts.length,
        (Lagrange.nodalWeight (Finset.range pts.length) (fun j => pts.getD j 0) i
          / (x - pts.getD i 0)) * Polynomial.eval (pts.getD i 0) p
        = ∑ i ∈ Finset.range pts.length,
          Lagrange.nodalWeight (Finset.range pts.length) (fun j => pts.getD j 0) i
            * (x - pts.getD i 0)⁻¹ * Polynomial.eval (pts.getD i 0) p :=
      Finset.sum_congr rfl (fun i _ => by rw [div_eq_mul_inv])
    rw [hsum, ← Lagrange.eval_nodal,
      ← Lagrange.eval_interpolate_not_at_node
        (fun i => Polynomial.eval (pts.getD i 0) p) hxne]
    have hdegW : p.degree < ((Finset.range pts.length).card : WithBot Nat) := by
      rw [Finset.card_range]
      exact lt_of_le_of_lt Polynomial.degree_le_natDegree (by exact_mod_cast hdeg)
    have hpi : p = (Lagrange.interpolate (Finset.range pts.length)
        (fun j => pts.getD j 0)) (fun i => Polynomial.eval (pts.getD i 0) p) :=
      Lagrange.eq_interpolate_of_eval_eq _ hinj hdegW (fun i _ => rfl)
    rw [← hpi]

/-! ### Shared structural helpers for the claim theorems -/

theorem interpolate_at_node (pts : List F) (hnd : pts.Nodup) (values : List (List F))
    (w : List F) {i : Nat} (hi : i < pts.length) :
    interpolate pts values (pts.getD i 0) w = values.getD i [] := by
  unfold interpolate
  rw [findIdx?_eq_some_of_nodup hnd hi]

theorem undefined_lde_row_left (polys : List (List F)) (eh : Nat) {i : Nat}
    (hi : i < polys.length) :
    (NaiveUndefinedLde.lde_batch polys eh).getD i [] = polys.getD i [] := by
  unfold NaiveUndefinedLde.lde_batch
  exact List.getD_append _ _ _ _ hi

theorem undefined_lde_row_right (polys : List (List F)) (eh : Nat) {j : Nat}
    (hj : polys.length + j < eh) :
    (NaiveUndefinedLde.lde_batch polys eh).getD (polys.length + j) []
      = interpolate ((List.range polys.length).map (fun k : Nat => (k : F))) polys
          ((polys.length + j : Nat) : F)
          (barycentric_weights ((List.range polys.length).map (fun k : Nat => (k : F)))) := by
  unfold NaiveUndefinedLde.lde_batch
  rw [List.getD_append_right _ _ _ _ (Nat.le_add_right _ _)]
  have hj' : polys.length + j - polys.length = j := by omega
  rw [hj']
  have hjlen : j < (List.range' polys.length (eh - polys.length)).length := by
    rw [List.length_range']; omega
  rw [getD_map_of_lt _ _ hjlen _ 0, List.getD_eq_getElem _ _ hjlen, List.getElem_range']
  norm_num

/-! ### Claim theorems -/

/-- C3: for every pairwise-distinct domain (the spec's data-model precondition
on domains), every value matrix and every weight vector, if the query point
`x` equals the domain point at index `i` then `interpolate` returns row `i`
of the value matrix unchanged, with no field arithmetic applied to it. -/
theorem interpolate_exact_match (pts : List F) (hnd : pts.Nodup)
    (values : List (List F)) (w : List F) {i : Nat} (hi : i < pts.length)
    {x : F} (hx : pts.getD i 0 = x) :
    interpolate pts values x w = values.getD i [] := by
  rw [← hx]
  exact interpolate_at_node pts hnd values w hi

/-- C10: whenever the query point `x` equals some domain point, the result of
`interpolate` does not depend on the barycentric-weights argument: two calls
identical except for arbitrarily different weight vectors return equal
results. -/
theorem interpolate_weights_irrelevant (pts : List F) (values : List (List F))
    {x : F} (hx : x ∈ pts) (w₁ w₂ : List F) :
    interpolate pts values x w₁ = interpolate pts values x w₂ := by
  obtain ⟨i, hfind, -, -⟩ := findIdx?_mem hx
  unfold interpolate
  rw [hfind]

/-- C5: `NaiveUndefinedLde::lde_batch` called with `extended_height` equal to
the original height returns the input with zero appended rows: the appended
extension is empty and the result equals the input. -/
theorem undefined_lde_noop (polys : List (List F)) :
    NaiveUndefinedLde.lde_batch polys polys.length = polys := by
  unfold NaiveUndefinedLde.lde_batch
  simp

/-- C4: for every input matrix and every `extended_height ≥` the original
height `h`, `NaiveUndefinedLde::lde_batch` returns a matrix of height
`extended_height` whose first `h` rows are the input rows unchanged and whose
row `h+j` (for `h+j < extended_height`) is the barycentric interpolation of
the input over the canonical-index domain evaluated at the embedding of
`h+j`. -/
theorem undefined_lde_shape (polys : List (List F)) (eh : Nat)
    (hle : polys.length ≤ eh) :
    (NaiveUndefinedLde.lde_batch polys eh).length = eh
    ∧ (∀ i, i < polys.length →
        (NaiveUndefinedLde.lde_batch polys eh).getD i [] = polys.getD i [])
    ∧ (∀ j, polys.length + j < eh →
        (NaiveUndefinedLde.lde_batch polys eh).getD (polys.length + j) []
          = interpolate ((List.range polys.length).map (fun k : Nat => (k : F)))
              polys ((polys.length + j : Nat) : F)
              (barycentric_weights
                ((List.range polys.length).map (fun k : Nat => (k : F))))) := by
  refine ⟨?_, ?_, ?_⟩
  · unfold NaiveUndefinedLde.lde_batch
    rw [List.length_append, List.length_map, List.length_range']
    omega
  · intro i hi
    exact undefined_lde_row_left polys eh hi
  · intro j hj
    exact undefined_lde_row_right polys eh hj

/-- C6 (corrected): calling the arbitrary variant with
`extended_height < original_height` does not stop execution.  The embedded
function — like the Rust code, whose iterator `original_height..extended_height`
is simply empty in this case — silently returns the input with zero appended
rows.  This closed evaluation exhibits a returned result at such an input,
refuting the claimed fatal precondition failure. -/
theorem undefined_lde_shrink_counterexample :
    NaiveUndefinedLde.lde_batch [[(1 : ZMod 17)]] 0 = [[(1 : ZMod 17)]] := rfl

/-- C6 (amended): calling `NaiveUndefinedLde::lde_batch` with
`extended_height < original_height` is not checked and does not stop
execution: the row range to append is empty, so the function silently
returns the input matrix with zero appended rows. -/
theorem undefined_lde_shrink_noop (polys : List (List F)) (eh : Nat)
    (hlt : eh < polys.length) :
    NaiveUndefinedLde.lde_batch polys eh = polys := by
  unfold NaiveUndefinedLde.lde_batch
  have h0 : eh - polys.length = 0 := Nat.sub_eq_zero_of_le (Nat.le_of_lt hlt)
  simp [h0]

/-- C7: for a domain of pairwise-distinct points, every product
`Π_{j≠i}(point[i] − point[j])` formed by `barycentric_weights` is non-zero
(so the non-zero-input precondition of batched inversion holds), and every
returned barycentric weight is non-zero. -/
theorem barycentric_weights_nonzero (pts : List F) (hnd : pts.Nodup) :
    (∀ d ∈ lagrange_denominators pts, d ≠ 0)
    ∧ ∀ w ∈ barycentric_weights pts, w ≠ 0 := by
  have hden : ∀ d ∈ lagrange_denominators pts, d ≠ 0 := by
    intro d hd
    unfold lagrange_denominators at hd
    rw [List.mem_map] at hd
    obtain ⟨i, hi, rfl⟩ := hd
    rw [List.mem_range] at hi
    apply List.prod_ne_zero
    intro h0
    rw [List.mem_map] at h0
    obtain ⟨j, hj, hj0⟩ := h0
    rw [List.mem_filter, List.mem_range] at hj
    obtain ⟨hjlt, hji⟩ := hj
    have hij : i ≠ j := by
      intro hEq
      simp [hEq] at hji
    exact nodup_getD_ne pts hnd hi hjlt hij (sub_eq_zero.mp hj0)
  refine ⟨hden, ?_⟩
  intro w hw
  unfold barycentric_weights batch_multiplicative_inverse at hw
  rw [List.mem_map] at hw
  obtain ⟨d, hd, rfl⟩ := hw
  exact inv_ne_zero (hden d hd)

/-! ### Rows of the two-adic variants -/

theorem cyclic_subgroup_getD (g : F) {N r : Nat} (hr : r < N) :
    (cyclic_subgroup_known_order g N).getD r 0 = g ^ r := by
  unfold cyclic_subgroup_known_order
  exact getD_map_range _ hr 0

theorem coset_getD (g s : F) {N r : Nat} (hr : r < N) :
    (cyclic_subgroup_coset_known_order g s N).getD r 0 = s * g ^ r := by
  unfold cyclic_subgroup_coset_known_order
  exact getD_map_range _ hr 0

theorem subgroup_lde_row (tag : Nat → F) (polys : List (List F))
    (bits added_bits : Nat) (hlen : polys.length = 2 ^ bits) {r : Nat}
    (hr : r < 2 ^ (bits + added_bits)) :
    (NaiveSubgroupLde.lde_batch tag polys added_bits).getD r []
      = interpolate (cyclic_subgroup_known_order (tag bits) (2 ^ bits)) polys
          (tag (bits + added_bits) ^ r)
          (barycentric_weights (cyclic_subgroup_known_order (tag bits) (2 ^ bits))) := by
  have hlog : Nat.log2 polys.length = bits := by
    rw [hlen, Nat.log2_eq_log_two, Nat.log_pow Nat.one_lt_two]
  have hr' : r < (cyclic_subgroup_known_order (tag (bits + added_bits))
      (2 ^ (bits + added_bits))).length := by
    simpa [cyclic_subgroup_known_order] using hr
  simp only [NaiveSubgroupLde.lde_batch, hlog]
  rw [getD_map_of_lt _ _ hr' _ 0, cyclic_subgroup_getD _ hr]

theorem coset_lde_row (tag : Nat → F) (generator : F) (polys : List (List F))
    (bits added_bits : Nat) (hlen : polys.length = 2 ^ bits) {r : Nat}
    (hr : r < 2 ^ (bits + added_bits)) :
    (NaiveCosetLde.lde_batch tag generator polys added_bits).getD r []
      = interpolate (cyclic_subgroup_known_order (tag bits) (2 ^ bits)) polys
          (NaiveCosetLde.shift generator (bits + added_bits)
            * tag (bits + added_bits) ^ r)
          (barycentric_weights (cyclic_subgroup_known_order (tag bits) (2 ^ bits))) := by
  have hlog : Nat.log2 polys.length = bits := by
    rw [hlen, Nat.log2_eq_log_two, Nat.log_pow Nat.one_lt_two]
  have hr' : r < (cyclic_subgroup_coset_known_order (tag (bits + added_bits))
      (NaiveCosetLde.shift generator (bits + added_bits))
      (2 ^ (bits + added_bits))).length := by
    simpa [cyclic_subgroup_coset_known_order] using hr
  simp only [NaiveCosetLde.lde_batch, hlog]
  rw [getD_map_of_lt _ _ hr' _ 0, coset_getD _ _ hr]

/-- C2: for every input matrix of power-of-two height `2^bits` and every
`added_bits`, the output of `NaiveSubgroupLde::lde_batch` reproduces the
input exactly at the rows corresponding to the original domain points: for
every `k < 2^bits`, output row `k·2^added_bits` equals input row `k`.  The
two field-capability facts this rests on are hypotheses: the
`2^(bits+added_bits)`-th root of unity raised to the `2^added_bits`-th power
regenerates the source subgroup generator, and the source subgroup points are
pairwise distinct. -/
theorem subgroup_lde_reproduces (tag : Nat → F) (polys : List (List F))
    (bits added_bits : Nat) (hlen : polys.length = 2 ^ bits)
    (hcompat : tag (bits + added_bits) ^ 2 ^ added_bits = tag bits)
    (hnd : (cyclic_subgroup_known_order (tag bits) (2 ^ bits)).Nodup) :
    ∀ k, k < 2 ^ bits →
      (NaiveSubgroupLde.lde_batch tag polys added_bits).getD (k * 2 ^ added_bits) []
        = polys.getD k [] := by
  intro k hk
  have hrlt : k * 2 ^ added_bits < 2 ^ (bits + added_bits) := by
    rw [pow_add]
    exact mul_lt_mul_of_pos_right hk (by positivity)
  rw [subgroup_lde_row tag polys bits added_bits hlen hrlt]
  have hx : tag (bits + added_bits) ^ (k * 2 ^ added_bits)
      = (cyclic_subgroup_known_order (tag bits) (2 ^ bits)).getD k 0 := by
    rw [cyclic_subgroup_getD _ hk, ← hcompat, ← pow_mul, Nat.mul_comm]
  rw [hx]
  exact interpolate_at_node _ hnd _ _
    (by simpa [cyclic_subgroup_known_order] using hk)

/-- C9: for every input matrix of power-of-two height,
`NaiveSubgroupLde::lde_batch` with `added_bits = 0` returns a matrix
extensionally equal to the input: the target domain coincides with the
source domain point for point in the same order, so every evaluation hits
the exact-match branch and copies the corresponding input row. -/
theorem subgroup_lde_identity (tag : Nat → F) (polys : List (List F)) (bits : Nat)
    (hlen : polys.length = 2 ^ bits)
    (hnd : (cyclic_subgroup_known_order (tag bits) (2 ^ bits)).Nodup) :
    NaiveSubgroupLde.lde_batch tag polys 0 = polys := by
  have hlog : Nat.log2 polys.length = bits := by
    rw [hlen, Nat.log2_eq_log_two, Nat.log_pow Nat.one_lt_two]
  have hlenout : (NaiveSubgroupLde.lde_batch tag polys 0).length = polys.length := by
    simp [NaiveSubgroupLde.lde_batch, hlog, cyclic_subgroup_known_order,
      cyclic_subgroup_coset_known_order, hlen]
  refine List.ext_get hlenout ?_
  intro n h1 h2
  have hn : n < 2 ^ (bits + 0) := by
    rw [Nat.add_zero, ← hlen]
    rwa [hlenout] at h1
  calc (NaiveSubgroupLde.lde_batch tag polys 0).get ⟨n, h1⟩
      = (NaiveSubgroupLde.lde_batch tag polys 0).getD n [] := by
        rw [List.get_eq_getElem, List.getD_eq_getElem _ _ h1]
    _ = polys.getD n [] := by
        rw [subgroup_lde_row tag polys bits 0 hlen hn]
        have hx : tag (bits + 0) ^ n
            = (cyclic_subgroup_known_order (tag bits) (2 ^ bits)).getD n 0 := by
          rw [Nat.add_zero, cyclic_subgroup_getD _ (by rwa [Nat.add_zero] at hn)]
        rw [hx]
        exact interpolate_at_node _ hnd _ _
          (by simpa [cyclic_subgroup_known_order] using (by rwa [Nat.add_zero] at hn))
    _ = polys.get ⟨n, h2⟩ := by
        rw [List.get_eq_getElem, List.getD_eq_getElem _ _ h2]

/-- C8: for the coset variant, no element of the target coset
`generator · {g_lde^0, …, g_lde^(2^(bits+added_bits)−1)}` equals any element
of the source subgroup `{g^0, …, g^(2^bits−1)}`.  The field-capability facts
this rests on are hypotheses: `g_lde` has order dividing
`2^(bits+added_bits)`, raising it to the `2^added_bits`-th power gives `g`,
and the designated multiplicative generator lies outside the two-adic
subgroup of order `2^(bits+added_bits)` (its `2^(bits+added_bits)`-th power
is not 1). -/
theorem coset_lde_disjoint (tag : Nat → F) (generator : F) (bits added_bits : Nat)
    (hroot : tag (bits + added_bits) ^ 2 ^ (bits + added_bits) = 1)
    (hcompat : tag (bits + added_bits) ^ 2 ^ added_bits = tag bits)
    (hgen : generator ^ 2 ^ (bits + added_bits) ≠ 1) :
    ∀ x ∈ cyclic_subgroup_coset_known_order (tag (bits + added_bits))
        (NaiveCosetLde.shift generator (bits + added_bits))
        (2 ^ (bits + added_bits)),
      x ∉ cyclic_subgroup_known_order (tag bits) (2 ^ bits) := by
  intro x hx hmem
  unfold cyclic_subgroup_coset_known_order at hx
  rw [List.mem_map] at hx
  obtain ⟨i, hi, rfl⟩ := hx
  unfold cyclic_subgroup_known_order at hmem
  rw [List.mem_map] at hmem
  obtain ⟨j, hj, hEq⟩ := hmem
  apply hgen
  have h1 : (tag (bits + added_bits) ^ i) ^ 2 ^ (bits + added_bits) = 1 := by
    rw [pow_right_comm, hroot, one_pow]
  have h2 : tag bits ^ 2 ^ (bits + added_bits) = 1 := by
    rw [← hcompat, pow_right_comm, hroot, one_pow]
  have h3 := congrArg (fun y => y ^ 2 ^ (bits + added_bits)) hEq
  simp only [NaiveCosetLde.shift] at h3
  rw [mul_pow, h1, mul_one, pow_right_comm, h2, one_pow] at h3
  exact h3.symm

/-! ### Rows of the three variants on the evaluations of a polynomial -/

theorem undefined_lde_eval_row (p : Polynomial F) (h eh : Nat)
    (hnd : ((List.range h).map (fun k : Nat => (k : F))).Nodup)
    (hdeg : p.natDegree < h) (hle : h ≤ eh) {r : Nat} (hr : r < eh) :
    (NaiveUndefinedLde.lde_batch
        (((List.range h).map (fun k : Nat => (k : F))).map
          (fun t => [Polynomial.eval t p])) eh).getD r []
      = [Polynomial.eval ((r : Nat) : F) p] := by
  have hlenpts : ((List.range h).map (fun k : Nat => (k : F))).length = h := by simp
  have hlenv : (((List.range h).map (fun k : Nat => (k : F))).map
      (fun t => [Polynomial.eval t p])).length = h := by simp
  by_cases hcase : r < h
  · rw [undefined_lde_row_left _ eh (by rw [hlenv]; exact hcase),
      getD_map_of_lt _ _ (by rw [hlenpts]; exact hcase) _ 0,
      getD_map_range _ hcase 0]
  · have hr2 : (((List.range h).map (fun k : Nat => (k : F))).map
        (fun t => [Polynomial.eval t p])).length + (r - h) < eh := by
      rw [hlenv]; omega
    have hrow := undefined_lde_row_right (((List.range h).map
        (fun k : Nat => (k : F))).map (fun t => [Polynomial.eval t p])) eh hr2
    rw [hlenv] at hrow
    have hEq : h + (r - h) = r := by omega
    rw [hEq] at hrow
    rw [hrow]
    exact interpolate_map_eval p _ hnd (by rwa [hlenpts]) _

theorem subgroup_lde_eval_row (tag : Nat → F) (p : Polynomial F)
    (bits added_bits : Nat)
    (hnd : (cyclic_subgroup_known_order (tag bits) (2 ^ bits)).Nodup)
    (hdeg : p.natDegree < 2 ^ bits) {r : Nat} (hr : r < 2 ^ (bits + added_bits)) :
    (NaiveSubgroupLde.lde_batch tag
        ((cyclic_subgroup_known_order (tag bits) (2 ^ bits)).map
          (fun t => [Polynomial.eval t p])) added_bits).getD r []
      = [Polynomial.eval (tag (bits + added_bits) ^ r) p] := by
  have hlen : ((cyclic_subgroup_known_order (tag bits) (2 ^ bits)).map
      (fun t => [Polynomial.eval t p])).length = 2 ^ bits := by
    simp [cyclic_subgroup_known_order]
  rw [subgroup_lde_row tag _ bits added_bits hlen hr]
  exact interpolate_map_eval p _ hnd
    (by simpa [cyclic_subgroup_known_order] using hdeg) _

theorem coset_lde_eval_row (tag : Nat → F) (generator : F) (p : Polynomial F)
    (bits added_bits : Nat)
    (hnd : (cyclic_subgroup_known_order (tag bits) (2 ^ bits)).Nodup)
    (hdeg : p.natDegree < 2 ^ bits) {r : Nat} (hr : r < 2 ^ (bits + added_bits)) :
    (NaiveCosetLde.lde_batch tag generator
        ((cyclic_subgroup_known_order (tag bits) (2 ^ bits)).map
          (fun t => [Polynomial.eval t p])) added_bits).getD r []
      = [Polynomial.eval (NaiveCosetLde.shift generator (bits + added_bits)
          * tag (bits + added_bits) ^ r) p] := by
  have hlen : ((cyclic_subgroup_known_order (tag bits) (2 ^ bits)).map
      (fun t => [Polynomial.eval t p])).length = 2 ^ bits := by
    simp [cyclic_subgroup_known_order]
  rw [coset_lde_row tag generator _ bits added_bits hlen hr]
  exact interpolate_map_eval p _ hnd
    (by simpa [cyclic_subgroup_known_order] using hdeg) _

/-- C1: for every field, every pairwise-distinct domain of `n` points, and
every polynomial `p` with `natDegree p < n` whose evaluations fill the
(one-column) input matrix, `interpolate` with the barycentric weights of the
domain returns exactly `[p(x)]` at every query point `x` outside the domain;
consequently every row of the extended output of each of the three
`lde_batch` variants equals the direct evaluation of `p` at the
corresponding target-domain point (canonical index `r`, `g_lde^r`, and
`shift·g_lde^r` respectively). -/
theorem lde_polynomial_consistency :
    (∀ (p : Polynomial F) (pts : List F), pts.Nodup → p.natDegree < pts.length →
      ∀ x : F, x ∉ pts →
        interpolate pts (pts.map (fun t => [Polynomial.eval t p])) x
          (barycentric_weights pts) = [Polynomial.eval x p])
    ∧ (∀ (p : Polynomial F) (h eh : Nat),
        ((List.range h).map (fun k : Nat => (k : F))).Nodup →
        p.natDegree < h → h ≤ eh → ∀ r, r < eh →
          (NaiveUndefinedLde.lde_batch
              (((List.range h).map (fun k : Nat => (k : F))).map
                (fun t => [Polynomial.eval t p])) eh).getD r []
            = [Polynomial.eval ((r : Nat) : F) p])
    ∧ (∀ (tag : Nat → F) (p : Polynomial F) (bits added_bits : Nat),
        (cyclic_subgroup_known_order (tag bits) (2 ^ bits)).Nodup →
        p.natDegree < 2 ^ bits → ∀ r, r < 2 ^ (bits + added_bits) →
          (NaiveSubgroupLde.lde_batch tag
              ((cyclic_subgroup_known_order (tag bits) (2 ^ bits)).map
                (fun t => [Polynomial.eval t p])) added_bits).getD r []
            = [Polynomial.eval (tag (bits + added_bits) ^ r) p])
    ∧ (∀ (tag : Nat → F) (generator : F) (p : Polynomial F) (bits added_bits : Nat),
        (cyclic_subgroup_known_order (tag bits) (2 ^ bits)).Nodup →
        p.natDegree < 2 ^ bits → ∀ r, r < 2 ^ (bits + added_bits) →
          (NaiveCosetLde.lde_batch tag generator
              ((cyclic_subgroup_known_order (tag bits) (2 ^ bits)).map
                (fun t => [Polynomial.eval t p])) added_bits).getD r []
            = [Polynomial.eval (NaiveCosetLde.shift generator (bits + added_bits)
                * tag (bits + added_bits) ^ r) p]) := by
  refine ⟨?_, ?_, ?_, ?_⟩
  · intro p pts hnd hdeg x _hx
    exact interpolate_map_eval p pts hnd hdeg x
  · intro p h eh hnd hdeg hle r hr
    exact undefined_lde_eval_row p h eh hnd hdeg hle hr
  · intro tag p bits added_bits hnd hdeg r hr
    exact subgroup_lde_eval_row tag p bits added_bits hnd hdeg hr
  · intro tag generator p bits added_bits hnd hdeg r hr
    exact coset_lde_eval_row tag generator p bits added_bits hnd hdeg hr

/-! ### Witnesses: concrete instances over the prime field of modulus 17
(the spec's §8 scenario field), whose two-adic generator tower is
`b ↦ 3^(2^(4−b))`. -/

/-- Witness for C3 at a concrete instance over `ZMod 17`. -/
theorem interpolate_exact_match_witness :
    ([(5 : ZMod 17), 9].Nodup)
    ∧ (1 : Nat) < [(5 : ZMod 17), 9].length
    ∧ [(5 : ZMod 17), 9].getD 1 0 = 9
    ∧ interpolate [(5 : ZMod 17), 9] [[1], [2]] 9 [] = [[1], [2]].getD 1 [] :=
  ⟨by decide, by decide, by decide,
    @interpolate_exact_match (ZMod 17) _ _ [(5 : ZMod 17), 9] (by decide)
      [[1], [2]] [] 1 (by decide) 9 (by decide)⟩

/-- Witness for C10 at a concrete instance over `ZMod 17`. -/
theorem interpolate_weights_irrelevant_witness :
    (9 : ZMod 17) ∈ [(5 : ZMod 17), 9]
    ∧ interpolate [(5 : ZMod 17), 9] [[1], [2]] 9 []
        = interpolate [(5 : ZMod 17), 9] [[1], [2]] 9 [4, 4] :=
  ⟨by decide,
    interpolate_weights_irrelevant [(5 : ZMod 17), 9] [[1], [2]] (by decide) [] [4, 4]⟩

/-- Witness for C4 at a concrete instance over `ZMod 17`: two rows extended
to height 3. -/
theorem undefined_lde_shape_witness :
    ([[1], [2]] : List (List (ZMod 17))).length ≤ 3
    ∧ (NaiveUndefinedLde.lde_batch ([[1], [2]] : List (List (ZMod 17))) 3).length = 3
    ∧ (NaiveUndefinedLde.lde_batch ([[1], [2]] : List (List (ZMod 17))) 3).getD 1 []
        = [[1], [2]].getD 1 []
    ∧ (NaiveUndefinedLde.lde_batch ([[1], [2]] : List (List (ZMod 17))) 3).getD (2 + 0) []
        = interpolate ((List.range 2).map (fun k : Nat => (k : ZMod 17))) [[1], [2]]
            ((2 + 0 : Nat) : ZMod 17)
            (barycentric_weights ((List.range 2).map (fun k : Nat => (k : ZMod 17)))) := by
  have h := undefined_lde_shape ([[1], [2]] : List (List (ZMod 17))) 3 (by decide)
  exact ⟨by decide, h.1, h.2.1 1 (by decide), h.2.2 0 (by decide)⟩

/-- Witness for the amended C6 at a concrete instance over `ZMod 17`: height
2 shrunk to 1 silently returns the input. -/
theorem undefined_lde_shrink_noop_witness :
    (1 : Nat) < ([[1], [2]] : List (List (ZMod 17))).length
    ∧ NaiveUndefinedLde.lde_batch ([[1], [2]] : List (List (ZMod 17))) 1 = [[1], [2]] :=
  ⟨by decide, undefined_lde_shrink_noop ([[1], [2]] : List (List (ZMod 17))) 1 (by decide)⟩

/-- Witness for C7 at a concrete instance over `ZMod 17`: the domain
`[0, 1]`, whose denominator list contains `16 = 0 − 1` and whose weight list
contains `16⁻¹`. -/
theorem barycentric_weights_nonzero_witness :
    ([(0 : ZMod 17), 1].Nodup)
    ∧ (16 : ZMod 17) ∈ lagrange_denominators [(0 : ZMod 17), 1]
    ∧ (16 : ZMod 17) ≠ 0
    ∧ (16 : ZMod 17)⁻¹ ∈ barycentric_weights [(0 : ZMod 17), 1]
    ∧ (16 : ZMod 17)⁻¹ ≠ 0 := by
  have h := barycentric_weights_nonzero [(0 : ZMod 17), 1] (by decide)
  have hd : (16 : ZMod 17) ∈ lagrange_denominators [(0 : ZMod 17), 1] := by decide
  have hw : (16 : ZMod 17)⁻¹ ∈ barycentric_weights [(0 : ZMod 17), 1] :=
    List.mem_map_of_mem _ hd
  exact ⟨by decide, hd, h.1 _ hd, hw, h.2 _ hw⟩

/-- Witness for C2 at a concrete instance over `ZMod 17`: height `2 = 2^1`,
one added bit, original row 1 reappearing as output row 2. -/
theorem subgroup_lde_reproduces_witness :
    ([[1], [2]] : List (List (ZMod 17))).length = 2 ^ 1
    ∧ ((fun b => (3 : ZMod 17) ^ 2 ^ (4 - b)) (1 + 1)) ^ 2 ^ 1
        = (fun b => (3 : ZMod 17) ^ 2 ^ (4 - b)) 1
    ∧ (cyclic_subgroup_known_order ((fun b => (3 : ZMod 17) ^ 2 ^ (4 - b)) 1)
        (2 ^ 1)).Nodup
    ∧ (1 : Nat) < 2 ^ 1
    ∧ (NaiveSubgroupLde.lde_batch (fun b => (3 : ZMod 17) ^ 2 ^ (4 - b))
        [[1], [2]] 1).getD (1 * 2 ^ 1) [] = ([[1], [2]] : List (List (ZMod 17))).getD 1 [] :=
  ⟨by decide, by decide, by decide, by decide,
    subgroup_lde_reproduces (fun b => (3 : ZMod 17) ^ 2 ^ (4 - b)) [[1], [2]] 1 1
      (by decide) (by decide) (by decide) 1 (by decide)⟩

/-- Witness for C9 at a concrete instance over `ZMod 17`: height `2 = 2^1`,
zero added bits. -/
theorem subgroup_lde_identity_witness :
    ([[1], [2]] : List (List (ZMod 17))).length = 2 ^ 1
    ∧ (cyclic_subgroup_known_order ((fun b => (3 : ZMod 17) ^ 2 ^ (4 - b)) 1)
        (2 ^ 1)).Nodup
    ∧ NaiveSubgroupLde.lde_batch (fun b => (3 : ZMod 17) ^ 2 ^ (4 - b)) [[1], [2]] 0
        = [[1], [2]] :=
  ⟨by decide, by decide,
    subgroup_lde_identity (fun b => (3 : ZMod 17) ^ 2 ^ (4 - b)) [[1], [2]] 1
      (by decide) (by decide)⟩

/-- Witness for C8 at a concrete instance over `ZMod 17`: `bits = added_bits
= 1`, coset element `3 = 3·g_lde^0` not in the order-2 source subgroup. -/
theorem coset_lde_disjoint_witness :
    ((fun b => (3 : ZMod 17) ^ 2 ^ (4 - b)) (1 + 1)) ^ 2 ^ (1 + 1) = 1
    ∧ ((fun b => (3 : ZMod 17) ^ 2 ^ (4 - b)) (1 + 1)) ^ 2 ^ 1
        = (fun b => (3 : ZMod 17) ^ 2 ^ (4 - b)) 1
    ∧ (3 : ZMod 17) ^ 2 ^ (1 + 1) ≠ 1
    ∧ (3 : ZMod 17) ∈ cyclic_subgroup_coset_known_order
        ((fun b => (3 : ZMod 17) ^ 2 ^ (4 - b)) (1 + 1))
        (NaiveCosetLde.shift (3 : ZMod 17) (1 + 1)) (2 ^ (1 + 1))
    ∧ (3 : ZMod 17) ∉ cyclic_subgroup_known_order
        ((fun b => (3 : ZMod 17) ^ 2 ^ (4 - b)) 1) (2 ^ 1) :=
  ⟨by decide, by decide, by decide, by decide,
    coset_lde_disjoint (fun b => (3 : ZMod 17) ^ 2 ^ (4 - b)) 3 1 1
      (by decide) (by decide) (by decide) 3 (by decide)⟩

/-- Witness for C1 at concrete instances over `ZMod 17` with the polynomial
`p = X`: the interpolation part on domain `[5, 9]` at query point 2, and one
freshly computed row of each `lde_batch` variant. -/
theorem lde_polynomial_consistency_witness :
    ([(5 : ZMod 17), 9].Nodup)
    ∧ (Polynomial.X : Polynomial (ZMod 17)).natDegree < [(5 : ZMod 17), 9].length
    ∧ (2 : ZMod 17) ∉ [(5 : ZMod 17), 9]
    ∧ interpolate [(5 : ZMod 17), 9]
        ([(5 : ZMod 17), 9].map
          (fun t => [Polynomial.eval t (Polynomial.X : Polynomial (ZMod 17))]))
        2 (barycentric_weights [(5 : ZMod 17), 9])
        = [Polynomial.eval (2 : ZMod 17) (Polynomial.X : Polynomial (ZMod 17))]
    ∧ (((List.range 2).map (fun k : Nat => (k : ZMod 17))).Nodup)
    ∧ (NaiveUndefinedLde.lde_batch
        (((List.range 2).map (fun k : Nat => (k : ZMod 17))).map
          (fun t => [Polynomial.eval t (Polynomial.X : Polynomial (ZMod 17))])) 3).getD 2 []
        = [Polynomial.eval ((2 : Nat) : ZMod 17) (Polynomial.X : Polynomial (ZMod 17))]
    ∧ ((cyclic_subgroup_known_order ((fun b => (3 : ZMod 17) ^ 2 ^ (4 - b)) 1)
        (2 ^ 1)).Nodup)
    ∧ (NaiveSubgroupLde.lde_batch (fun b => (3 : ZMod 17) ^ 2 ^ (4 - b))
        ((cyclic_subgroup_known_order ((fun b => (3 : ZMod 17) ^ 2 ^ (4 - b)) 1)
          (2 ^ 1)).map
          (fun t => [Polynomial.eval t (Polynomial.X : Polynomial (ZMod 17))])) 1).getD 3 []
        = [Polynomial.eval ((fun b => (3 : ZMod 17) ^ 2 ^ (4 - b)) (1 + 1) ^ 3)
            (Polynomial.X : Polynomial (ZMod 17))]
    ∧ (NaiveCosetLde.lde_batch (fun b => (3 : ZMod 17) ^ 2 ^ (4 - b)) 3
        ((cyclic_subgroup_known_order ((fun b => (3 : ZMod 17) ^ 2 ^ (4 - b)) 1)
          (2 ^ 1)).map
          (fun t => [Polynomial.eval t (Polynomial.X : Polynomial (ZMod 17))])) 1).getD 3 []
        = [Polynomial.eval (NaiveCosetLde.shift (3 : ZMod 17) (1 + 1)
            * (fun b => (3 : ZMod 17) ^ 2 ^ (4 - b)) (1 + 1) ^ 3)
            (Polynomial.X : Polynomial (ZMod 17))] := by
  obtain ⟨hA, hB, hC, hD⟩ := @lde_polynomial_consistency (ZMod 17) _ _
  refine ⟨by decide, by simp, by decide, ?_, by decide, ?_, by decide, ?_, ?_⟩
  · exact hA Polynomial.X [(5 : ZMod 17), 9] (by decide) (by simp) 2 (by decide)
  · exact hB Polynomial.X 2 3 (by decide) (by simp) (by decide) 2 (by decide)
  · exact hC (fun b => (3 : ZMod 17) ^ 2 ^ (4 - b)) Polynomial.X 1 1
      (by decide) (by simp) 3 (by decide)
  · exact hD (fun b => (3 : ZMod 17) ^ 2 ^ (4 - b)) 3 Polynomial.X 1 1
      (by decide) (by simp) 3 (by decide)

end NaiveLde
